import Mathlib

/-!
Verification of the multithreaded C web server core: scheduler policies
(FIFO ring buffer, SJF binary min-heap), the request handler's keep-alive
decisions, the acceptor cost estimator, and the metrics counters.
The definitions are shallow embeddings of the C sources; stateful code is
modelled by explicit state passing, and the C return codes (0 / -1) are
carried explicitly.
-/

set_option maxHeartbeats 1000000
set_option linter.unnecessarySimpa false
set_option linter.unusedVariables false

namespace Webserver

/-- A queued unit of work (struct job_t in threadpool.h):
client socket fd, estimated cost (a C long), reserved priority,
and monotonic arrival timestamp in milliseconds (uint64_t). -/
structure Job where
  client_fd : Int
  est_cost : Int
  priority : Int
  arrival_ms : Nat
deriving Repr, DecidableEq, Inhabited

/-- Comparator job_less from scheduler_sjf.c: smaller est_cost is higher
priority; ties broken by smaller arrival_ms. -/
def job_less (a b : Job) : Bool :=
  if a.est_cost < b.est_cost then true
  else if a.est_cost > b.est_cost then false
  else a.arrival_ms < b.arrival_ms

theorem job_less_iff (a b : Job) :
    job_less a b = true ↔
      (a.est_cost < b.est_cost ∨
        (a.est_cost = b.est_cost ∧ a.arrival_ms < b.arrival_ms)) := by
  unfold job_less
  split
  · simp; omega
  · split
    · simp; omega
    · simp; omega

theorem job_less_false_iff (a b : Job) :
    job_less a b = false ↔
      (b.est_cost < a.est_cost ∨
        (b.est_cost = a.est_cost ∧ b.arrival_ms ≤ a.arrival_ms)) := by
  rw [← Bool.not_eq_true, job_less_iff]
  constructor
  · intro h; push_neg at h; omega
  · intro h; push_neg; omega

theorem job_less_irrefl (a : Job) : job_less a a = false := by
  rw [job_less_false_iff]; omega

theorem job_less_asymm {a b : Job} (h : job_less a b = true) :
    job_less b a = false := by
  rw [job_less_iff] at h; rw [job_less_false_iff]; omega

theorem job_less_trans {a b c : Job} (h1 : job_less a b = true)
    (h2 : job_less b c = true) : job_less a c = true := by
  rw [job_less_iff] at h1 h2 ⊢; omega

theorem job_less_false_trans {a b c : Job} (h1 : job_less a b = false)
    (h2 : job_less b c = false) : job_less a c = false := by
  rw [job_less_false_iff] at h1 h2 ⊢; omega

theorem job_less_false_of_false_of_true {a b c : Job}
    (h1 : job_less a b = false) (h2 : job_less c b = true) :
    job_less a c = false := by
  rw [job_less_false_iff] at h1 ⊢; rw [job_less_iff] at h2; omega

/-! List access helpers: the C heap array is modelled as the list of its
`count` active slots; `get1` is a defaulted read, `swapL` is swap_jobs. -/

/-- Read slot i of the modelled array (out-of-range reads never occur on
the traced code paths; they default). -/
def get1 (l : List Job) (i : Nat) : Job :=
  l.getD i default

/-- swap_jobs from scheduler_sjf.c, acting on the modelled array:
slot i receives the old slot j and slot j receives the old slot i. -/
def swapL (l : List Job) (i j : Nat) : List Job :=
  (l.set i (get1 l j)).set j (get1 l i)

theorem get1_eq_getElem {l : List Job} {i : Nat} (h : i < l.length) :
    get1 l i = l[i] :=
  List.getD_eq_getElem l default h

theorem get1_set_self {l : List Job} {i : Nat} {x : Job} (h : i < l.length) :
    get1 (l.set i x) i = x := by
  induction l generalizing i with
  | nil => simp at h
  | cons a as ih =>
    cases i with
    | zero => simp [get1]
    | succ n => simpa [get1, List.getD] using ih (Nat.lt_of_succ_lt_succ h)

theorem get1_set_ne {l : List Job} {i j : Nat} {x : Job} (h : i ≠ j) :
    get1 (l.set i x) j = get1 l j := by
  induction l generalizing i j with
  | nil => simp [get1]
  | cons a as ih =>
    cases i with
    | zero =>
      cases j with
      | zero => exact absurd rfl h
      | succ m => simp [get1, List.getD]
    | succ n =>
      cases j with
      | zero => simp [get1]
      | succ m =>
        simpa [get1, List.getD] using ih (fun hc => h (by omega))

theorem get1_append_left {l l2 : List Job} {i : Nat} (h : i < l.length) :
    get1 (l ++ l2) i = get1 l i := by
  induction l generalizing i with
  | nil => simp at h
  | cons a as ih =>
    cases i with
    | zero => simp [get1]
    | succ n => simpa [get1, List.getD] using ih (Nat.lt_of_succ_lt_succ h)

theorem get1_append_self {l : List Job} {x : Job} :
    get1 (l ++ [x]) l.length = x := by
  induction l with
  | nil => simp [get1]
  | cons a as ih => simpa [get1, List.getD] using ih

theorem length_swapL (l : List Job) (i j : Nat) :
    (swapL l i j).length = l.length := by
  simp [swapL]

theorem get1_swapL_fst {l : List Job} {i j : Nat} (hij : i ≠ j)
    (hi : i < l.length) :
    get1 (swapL l i j) i = get1 l j := by
  rw [swapL, get1_set_ne (fun h => hij h.symm), get1_set_self hi]

theorem get1_swapL_snd {l : List Job} {i j : Nat} (hj : j < l.length) :
    get1 (swapL l i j) j = get1 l i := by
  rw [swapL, get1_set_self (by simpa using hj)]

theorem get1_swapL_other {l : List Job} {i j k : Nat} (hki : k ≠ i)
    (hkj : k ≠ j) :
    get1 (swapL l i j) k = get1 l k := by
  rw [swapL, get1_set_ne (fun h => hkj h.symm), get1_set_ne (fun h => hki h.symm)]

theorem cons_set_perm : ∀ (l : List Job) (k : Nat) (x : Job),
    k < l.length → (get1 l k :: l.set k x).Perm (x :: l)
  | [], k, x, h => by simp at h
  | a :: as, 0, x, _ => by
    simpa [get1] using List.Perm.swap x a as
  | a :: as, k + 1, x, h => by
    have ih := cons_set_perm as k x (Nat.lt_of_succ_lt_succ h)
    have e : (get1 (a :: as) (k + 1) :: (a :: as).set (k + 1) x)
        = get1 as k :: a :: as.set k x := by simp [get1, List.getD]
    rw [e]
    exact (List.Perm.swap a (get1 as k) (as.set k x)).trans
      ((ih.cons a).trans (List.Perm.swap x a as))

theorem swapL_perm : ∀ (l : List Job) (i j : Nat),
    i < l.length → j < l.length → (swapL l i j).Perm l
  | a :: as, 0, 0, _, _ => by
    simp [swapL, get1]
  | l, 0, j + 1, hi, hj => by
    match l, hi with
    | a :: as, _ =>
      have hj' : j < as.length := Nat.lt_of_succ_lt_succ hj
      have : swapL (a :: as) 0 (j + 1) = get1 as j :: as.set j a := by
        simp [swapL, get1, List.getD]
      rw [this]
      exact cons_set_perm as j a hj'
  | l, i + 1, 0, hi, hj => by
    have : swapL l (i + 1) 0 = swapL l 0 (i + 1) := by
      simp [swapL, List.set_comm _ _ _ (by omega : i + 1 ≠ 0)]
    rw [this]
    exact swapL_perm l 0 (i + 1) hj hi
  | a :: as, i + 1, j + 1, hi, hj => by
    have ih := swapL_perm as i j (Nat.lt_of_succ_lt_succ hi)
      (Nat.lt_of_succ_lt_succ hj)
    have : swapL (a :: as) (i + 1) (j + 1) = a :: swapL as i j := by
      simp [swapL, get1, List.getD]
    rw [this]
    exact ih.cons a

/-! SJF binary min-heap (scheduler_sjf.c). The backing C array holds
`capacity` slots of which the first `count` are active; the model keeps
exactly the active slots as a list, so `count` is the list length. -/

/-- sift_up from scheduler_sjf.c: while the element at idx compares less
than its parent at (idx-1)/2, swap it with the parent. -/
def sift_up (l : List Job) (idx : Nat) : List Job :=
  if 0 < idx then
    let parent := (idx - 1) / 2
    if job_less (get1 l idx) (get1 l parent) = true then
      sift_up (swapL l idx parent) parent
    else l
  else l
termination_by idx
decreasing_by
  exact Nat.lt_of_le_of_lt (Nat.div_le_self _ _) (by omega)

/-- The index `smallest` computed by one iteration of sift_down:
idx, unless a child within the active count compares less. -/
def sd_smallest (l : List Job) (idx : Nat) : Nat :=
  let n := l.length
  let lc := 2 * idx + 1
  let rc := 2 * idx + 2
  let s1 := if lc < n ∧ job_less (get1 l lc) (get1 l idx) = true then lc else idx
  if rc < n ∧ job_less (get1 l rc) (get1 l s1) = true then rc else s1

theorem sd_smallest_cases (l : List Job) (idx : Nat) :
    sd_smallest l idx = idx ∨
      (idx < sd_smallest l idx ∧ sd_smallest l idx < l.length) := by
  simp only [sd_smallest]
  split_ifs <;> omega

/-- sift_down from scheduler_sjf.c: repeatedly swap idx with its smallest
child while a child compares less, over the n = count active slots. -/
def sift_down (l : List Job) (idx : Nat) : List Job :=
  let s := sd_smallest l idx
  if s = idx then l
  else sift_down (swapL l idx s) s
termination_by l.length - idx
decreasing_by
  rename_i h
  rcases sd_smallest_cases l idx with he | ⟨h1, h2⟩
  · exact absurd he h
  · simp only [length_swapL]; omega

theorem length_sift_up (l : List Job) (idx : Nat) :
    (sift_up l idx).length = l.length := by
  induction l, idx using sift_up.induct with
  | case1 l idx hpos parent hless ih =>
    rw [sift_up]
    simp only [if_pos hpos, if_pos hless]
    rw [ih, length_swapL]
  | case2 l idx hpos parent hless =>
    rw [sift_up]
    simp only [if_pos hpos, if_neg hless]
  | case3 l idx hpos =>
    rw [sift_up]
    simp only [if_neg hpos]

theorem length_sift_down (l : List Job) (idx : Nat) :
    (sift_down l idx).length = l.length := by
  induction l, idx using sift_down.induct with
  | case1 l idx s hs =>
    rw [sift_down]
    simp only [if_pos hs]
  | case2 l idx s hs ih =>
    rw [sift_down]
    simp only [if_neg hs]
    rw [ih, length_swapL]

theorem sift_up_perm (l : List Job) (idx : Nat) (h : idx < l.length) :
    (sift_up l idx).Perm l := by
  induction l, idx using sift_up.induct with
  | case1 l idx hpos parent hless ih =>
    rw [sift_up]
    simp only [if_pos hpos, if_pos hless]
    have hp : (idx - 1) / 2 < l.length :=
      Nat.lt_of_le_of_lt (Nat.le_trans (Nat.div_le_self _ _) (by omega)) h
    exact (ih (by rw [length_swapL]; exact hp)).trans (swapL_perm l idx _ h hp)
  | case2 l idx hpos parent hless =>
    rw [sift_up]; simp only [if_pos hpos, if_neg hless]
    exact List.Perm.refl l
  | case3 l idx hpos =>
    rw [sift_up]; simp only [if_neg hpos]
    exact List.Perm.refl l

theorem sift_down_perm (l : List Job) (idx : Nat) :
    (sift_down l idx).Perm l := by
  induction l, idx using sift_down.induct with
  | case1 l idx s hs =>
    rw [sift_down]; simp only [if_pos hs]
    exact List.Perm.refl l
  | case2 l idx s hs ih =>
    rw [sift_down]
    simp only [if_neg hs]
    rcases sd_smallest_cases l idx with he | ⟨h1, h2⟩
    · exact absurd he hs
    · exact ih.trans (swapL_perm l idx s (by omega) (by exact h2))

/-- The binary min-heap invariant of the spec: for every non-root active
index i, the element at the parent (i-1)/2 does not compare greater. -/
def heapProp (l : List Job) : Prop :=
  ∀ i, i < l.length → 0 < i → job_less (get1 l i) (get1 l ((i - 1) / 2)) = false

instance heapPropDecidable (l : List Job) : Decidable (heapProp l) := by
  unfold heapProp
  exact Nat.decidableBallLT _ _

/-- In a heap, no element compares less than the root. -/
theorem heap_root_min {l : List Job} (hl : heapProp l) :
    ∀ i, i < l.length → job_less (get1 l i) (get1 l 0) = false := by
  intro i
  induction i using Nat.strong_induction_on with
  | _ i ih =>
    intro hi
    cases Nat.eq_zero_or_pos i with
    | inl h0 => rw [h0]; exact job_less_irrefl _
    | inr hpos =>
      have hpar : (i - 1) / 2 < i :=
        Nat.lt_of_le_of_lt (Nat.div_le_self _ _) (by omega)
      exact job_less_false_trans (hl i hi hpos)
        (ih _ hpar (Nat.lt_trans hpar hi))

/-- Heap invariant except possibly at the edge from k up to its parent;
in addition the children of k (when k is non-root) dominate k's parent.
This is the loop invariant of sift_up. -/
def upExcept (l : List Job) (k : Nat) : Prop :=
  (∀ i, i < l.length → 0 < i → i ≠ k →
    job_less (get1 l i) (get1 l ((i - 1) / 2)) = false) ∧
  (0 < k → ∀ j, j < l.length → (j - 1) / 2 = k →
    job_less (get1 l j) (get1 l ((k - 1) / 2)) = false)

theorem upExcept_step {l : List Job} {idx : Nat} (hpos : 0 < idx)
    (hlen : idx < l.length) (hup : upExcept l idx)
    (hless : job_less (get1 l idx) (get1 l ((idx - 1) / 2)) = true) :
    upExcept (swapL l idx ((idx - 1) / 2)) ((idx - 1) / 2) := by
  have hpidx : (idx - 1) / 2 < idx := by omega
  have hplen : (idx - 1) / 2 < l.length := Nat.lt_trans hpidx hlen
  have hgetidx : get1 (swapL l idx ((idx - 1) / 2)) idx = get1 l ((idx - 1) / 2) :=
    get1_swapL_fst (by omega) hlen
  have hgetp : get1 (swapL l idx ((idx - 1) / 2)) ((idx - 1) / 2) = get1 l idx :=
    get1_swapL_snd hplen
  have hother : ∀ k, k ≠ idx → k ≠ (idx - 1) / 2 →
      get1 (swapL l idx ((idx - 1) / 2)) k = get1 l k :=
    fun k h1 h2 => get1_swapL_other h1 h2
  constructor
  · intro i hi hipos hip
    rw [length_swapL] at hi
    by_cases hiidx : i = idx
    · subst hiidx
      rw [hgetidx, hgetp]
      exact job_less_asymm hless
    · rw [hother i hiidx hip]
      by_cases hpar : (i - 1) / 2 = idx
      · rw [hpar, hgetidx]
        exact hup.2 hpos i hi hpar
      · by_cases hpar2 : (i - 1) / 2 = (idx - 1) / 2
        · rw [hpar2, hgetp]
          exact job_less_false_of_false_of_true
            (by rw [← hpar2]; exact hup.1 i hi hipos hiidx) hless
        · rw [hother _ hpar hpar2]
          exact hup.1 i hi hipos hiidx
  · intro hppos j hj hjpar
    rw [length_swapL] at hj
    have hgp1 : ((idx - 1) / 2 - 1) / 2 ≠ idx := by omega
    have hgp2 : ((idx - 1) / 2 - 1) / 2 ≠ (idx - 1) / 2 := by omega
    rw [hother _ hgp1 hgp2]
    have hpedge : job_less (get1 l ((idx - 1) / 2))
        (get1 l (((idx - 1) / 2 - 1) / 2)) = false :=
      hup.1 _ hplen hppos (by omega)
    by_cases hjidx : j = idx
    · subst hjidx
      rw [hgetidx]
      exact hpedge
    · have hjne : j ≠ (idx - 1) / 2 := by omega
      rw [hother j hjidx hjne]
      have hjp : job_less (get1 l j) (get1 l ((idx - 1) / 2)) = false := by
        rw [← hjpar]
        exact hup.1 j hj (by omega) hjidx
      exact job_less_false_trans hjp hpedge

theorem sift_up_heap : ∀ (l : List Job) (k : Nat), k < l.length →
    upExcept l k → heapProp (sift_up l k) := by
  intro l k
  induction l, k using sift_up.induct with
  | case1 l idx hpos parent hless =>
    intro hk hup
    rename_i ih
    rw [sift_up]
    simp only [if_pos hpos, if_pos hless]
    exact ih (by rw [length_swapL]; omega)
      (upExcept_step hpos hk hup hless)
  | case2 l idx hpos parent hless =>
    intro hk hup
    rw [sift_up]
    simp only [if_pos hpos, if_neg hless]
    intro i hi hipos
    by_cases hii : i = idx
    · subst hii
      exact Bool.not_eq_true _ ▸ Bool.of_not_eq_true hless
    · exact hup.1 i hi hipos hii
  | case3 l idx hpos =>
    intro hk hup
    rw [sift_up]
    simp only [if_neg hpos]
    intro i hi hipos
    exact hup.1 i hi hipos (by omega)

/-- Appending a new element at index count to a heap satisfies the
sift_up precondition at that index. -/
theorem upExcept_append {l : List Job} {x : Job} (hl : heapProp l) :
    upExcept (l ++ [x]) l.length := by
  constructor
  · intro i hi hipos hine
    rw [List.length_append, List.length_singleton] at hi
    have hilt : i < l.length := by omega
    have hpar : (i - 1) / 2 < l.length := by omega
    rw [get1_append_left hilt, get1_append_left hpar]
    exact hl i hilt hipos
  · intro hpos j hj hjpar
    rw [List.length_append, List.length_singleton] at hj
    omega

/-- Heap invariant except possibly at the edges from k down to its
children; in addition the children of k (when k is non-root) dominate
k's parent. This is the loop invariant of sift_down. -/
def downExcept (l : List Job) (k : Nat) : Prop :=
  (∀ i, i < l.length → 0 < i → (i - 1) / 2 ≠ k →
    job_less (get1 l i) (get1 l ((i - 1) / 2)) = false) ∧
  (0 < k → ∀ j, j < l.length → (j - 1) / 2 = k →
    job_less (get1 l j) (get1 l ((k - 1) / 2)) = false)

theorem sd_eq_self {l : List Job} {idx : Nat}
    (h : sd_smallest l idx = idx) :
    (2 * idx + 1 < l.length →
      job_less (get1 l (2 * idx + 1)) (get1 l idx) = false) ∧
    (2 * idx + 2 < l.length →
      job_less (get1 l (2 * idx + 2)) (get1 l idx) = false) := by
  simp only [sd_smallest] at h
  split_ifs at h with h1 h2 h2
  · omega
  · omega
  · omega
  · push_neg at h1 h2
    constructor <;> intro hc
    · exact Bool.of_not_eq_true (h1 hc)
    · exact Bool.of_not_eq_true (h2 hc)

theorem sd_ne_self {l : List Job} {idx : Nat}
    (h : sd_smallest l idx ≠ idx) :
    (sd_smallest l idx = 2 * idx + 1 ∨ sd_smallest l idx = 2 * idx + 2) ∧
    sd_smallest l idx < l.length ∧
    job_less (get1 l (sd_smallest l idx)) (get1 l idx) = true ∧
    (∀ c, (c = 2 * idx + 1 ∨ c = 2 * idx + 2) → c < l.length →
      c ≠ sd_smallest l idx →
      job_less (get1 l c) (get1 l (sd_smallest l idx)) = false) := by
  simp only [sd_smallest] at h ⊢
  split_ifs at * with h1 h2 h2
  · -- s1 = left child, smallest = right child
    refine ⟨Or.inr rfl, h2.1, job_less_trans h2.2 h1.2, ?_⟩
    intro c hc hclen hcne
    have hcl : c = 2 * idx + 1 := by omega
    subst hcl
    exact job_less_asymm h2.2
  · -- smallest = left child
    refine ⟨Or.inl rfl, h1.1, h1.2, ?_⟩
    intro c hc hclen hcne
    have hcr : c = 2 * idx + 2 := by omega
    subst hcr
    push_neg at h2
    exact Bool.of_not_eq_true (fun ht => by have := h2 hclen; simp [ht] at this)
  · -- left not smaller, smallest = right child
    refine ⟨Or.inr rfl, h2.1, h2.2, ?_⟩
    intro c hc hclen hcne
    have hcl : c = 2 * idx + 1 := by omega
    subst hcl
    push_neg at h1
    have hlf : job_less (get1 l (2 * idx + 1)) (get1 l idx) = false :=
      Bool.of_not_eq_true (fun ht => by have := h1 hclen; simp [ht] at this)
    exact job_less_false_of_false_of_true hlf h2.2
  · omega

theorem downExcept_step {l : List Job} {idx : Nat}
    (hne : sd_smallest l idx ≠ idx) (hd : downExcept l idx) :
    downExcept (swapL l idx (sd_smallest l idx)) (sd_smallest l idx) := by
  obtain ⟨hchild, hslen, hsl, hsib⟩ := sd_ne_self hne
  have hidxs : idx < sd_smallest l idx := by omega
  have hidxlen : idx < l.length := Nat.lt_trans hidxs hslen
  have hpars : (sd_smallest l idx - 1) / 2 = idx := by omega
  have hgets : get1 (swapL l idx (sd_smallest l idx)) (sd_smallest l idx)
      = get1 l idx := get1_swapL_snd hslen
  have hgeti : get1 (swapL l idx (sd_smallest l idx)) idx
      = get1 l (sd_smallest l idx) := get1_swapL_fst (by omega) hidxlen
  have hother : ∀ k, k ≠ idx → k ≠ sd_smallest l idx →
      get1 (swapL l idx (sd_smallest l idx)) k = get1 l k :=
    fun k h1 h2 => get1_swapL_other h1 h2
  constructor
  · intro i hi hipos hipar
    rw [length_swapL] at hi
    by_cases his : i = sd_smallest l idx
    · subst his
      rw [hgets, hpars, hgeti]
      exact job_less_asymm hsl
    · by_cases hii : i = idx
      · subst hii
        have hp1 : (i - 1) / 2 ≠ i := by omega
        have hp2 : (i - 1) / 2 ≠ sd_smallest l i := by omega
        rw [hgeti, hother _ hp1 hp2]
        exact hd.2 hipos _ hslen hpars
      · rw [hother i hii his]
        by_cases hpi : (i - 1) / 2 = idx
        · rw [hpi, hgeti]
          exact hsib i (by omega) hi his
        · have hps : (i - 1) / 2 ≠ sd_smallest l idx := hipar
          rw [hother _ hpi hps]
          exact hd.1 i hi hipos hpi
  · intro hspos j hj hjpar
    rw [length_swapL] at hj
    rw [hpars, hgeti]
    have hjgt : sd_smallest l idx < j := by omega
    have hj1 : j ≠ idx := by omega
    have hj2 : j ≠ sd_smallest l idx := by omega
    rw [hother j hj1 hj2]
    have := hd.1 j hj (by omega) (by omega)
    rw [hjpar] at this
    exact this

theorem sift_down_heap : ∀ (l : List Job) (k : Nat),
    downExcept l k → heapProp (sift_down l k) := by
  intro l k
  induction l, k using sift_down.induct with
  | case1 l idx s hs =>
    intro hd
    rw [sift_down]
    simp only [if_pos hs]
    intro i hi hipos
    by_cases hpar : (i - 1) / 2 = idx
    · have hch : i = 2 * idx + 1 ∨ i = 2 * idx + 2 := by omega
      rw [hpar]
      rcases hch with hc | hc <;> subst hc
      · exact (sd_eq_self hs).1 hi
      · exact (sd_eq_self hs).2 hi
    · exact hd.1 i hi hipos hpar
  | case2 l idx s hs ih =>
    intro hd
    rw [sift_down]
    simp only [if_neg hs]
    exact ih (downExcept_step hs hd)

theorem get1_dropLast {l : List Job} {i : Nat} (h : i < l.length - 1) :
    get1 l.dropLast i = get1 l i := by
  induction l generalizing i with
  | nil => simp [get1]
  | cons a as ih =>
    cases as with
    | nil => simp at h
    | cons b bs =>
      cases i with
      | zero => simp [get1, List.getD]
      | succ n =>
        have := ih (i := n) (by simp at h ⊢; omega)
        simpa [get1, List.getD] using this

/-- After removing the root of a heap and moving the last element to the
root, the sift_down precondition holds at the root. -/
theorem downExcept_pop {x : Job} {rest : List Job}
    (hl : heapProp (x :: rest)) (hne : rest ≠ []) :
    downExcept (rest.getLastD x :: rest.dropLast) 0 := by
  have hlen : (rest.getLastD x :: rest.dropLast).length = rest.length := by
    simp [List.length_dropLast]
    cases rest with
    | nil => exact absurd rfl hne
    | cons b bs => simp
  constructor
  · intro i hi hipos hipar
    rw [hlen] at hi
    have hparpos : 0 < (i - 1) / 2 := by omega
    have hgi : get1 (rest.getLastD x :: rest.dropLast) i = get1 (x :: rest) i := by
      have h1 : get1 (rest.getLastD x :: rest.dropLast) i
          = get1 rest.dropLast (i - 1) := by
        cases i with
        | zero => omega
        | succ n => simp [get1, List.getD]
      have h2 : get1 (x :: rest) i = get1 rest (i - 1) := by
        cases i with
        | zero => omega
        | succ n => simp [get1, List.getD]
      rw [h1, h2, get1_dropLast (by omega)]
    have hgp : get1 (rest.getLastD x :: rest.dropLast) ((i - 1) / 2)
        = get1 (x :: rest) ((i - 1) / 2) := by
      have h1 : get1 (rest.getLastD x :: rest.dropLast) ((i - 1) / 2)
          = get1 rest.dropLast ((i - 1) / 2 - 1) := by
        rcases Nat.exists_eq_add_of_lt hparpos with ⟨m, hm⟩
        rw [show (i - 1) / 2 = m + 1 by omega]
        simp [get1, List.getD]
      have h2 : get1 (x :: rest) ((i - 1) / 2) = get1 rest ((i - 1) / 2 - 1) := by
        rcases Nat.exists_eq_add_of_lt hparpos with ⟨m, hm⟩
        rw [show (i - 1) / 2 = m + 1 by omega]
        simp [get1, List.getD]
      rw [h1, h2, get1_dropLast (by omega)]
    rw [hgi, hgp]
    exact hl i (by simp; omega) hipos
  · intro h0
    omega

/-- SJF scheduler internal state (sjf_state in scheduler_sjf.c): the
active heap prefix of the backing array, and the fixed capacity.
The C count is the length of `jobs`. -/
structure SjfState where
  jobs : List Job
  capacity : Nat
deriving Repr, DecidableEq

/-- scheduler_sjf_create: empty heap with the given capacity. -/
def scheduler_sjf_create (capacity : Nat) : SjfState :=
  { jobs := [], capacity := capacity }

/-- sjf_push: -1 when count equals capacity; otherwise place the job at
index count, sift it up, and increment count. Returns the C return code
together with the updated state. -/
def sjf_push (st : SjfState) (j : Job) : Int × SjfState :=
  if st.jobs.length = st.capacity then (-1, st)
  else (0, { st with jobs := sift_up (st.jobs ++ [j]) st.jobs.length })

/-- sjf_pop: -1 when count is zero; otherwise deliver the root arr[0],
decrement count, and when jobs remain move the last active element to
the root and sift it down. The out parameter is modelled as an Option
(none exactly when the C code leaves *out unwritten). -/
def sjf_pop (st : SjfState) : Int × Option Job × SjfState :=
  if st.jobs = [] then (-1, none, st)
  else
    let out := get1 st.jobs 0
    let rest := st.jobs.tail
    if rest = [] then (0, some out, { st with jobs := [] })
    else (0, some out,
      { st with jobs := sift_down (rest.getLastD out :: rest.dropLast) 0 })

/-- The SJF states reachable from a freshly created scheduler by any
sequence of push and pop calls (failing calls return the state
unchanged). -/
inductive SjfReachable : SjfState → Prop where
  | create (capacity : Nat) : SjfReachable (scheduler_sjf_create capacity)
  | push (st : SjfState) (j : Job) :
      SjfReachable st → SjfReachable (sjf_push st j).2
  | pop (st : SjfState) : SjfReachable st → SjfReachable (sjf_pop st).2.2

/-- Every reachable SJF state satisfies the binary min-heap property. -/
theorem reachable_heapProp {st : SjfState} (h : SjfReachable st) :
    heapProp st.jobs := by
  induction h with
  | create capacity =>
    intro i hi hpos
    simp [scheduler_sjf_create] at hi
  | push st j hst ih =>
    by_cases hfull : st.jobs.length = st.capacity
    · simpa [sjf_push, hfull] using ih
    · simp only [sjf_push, if_neg hfull]
      exact sift_up_heap _ _ (by simp) (upExcept_append ih)
  | pop st hst ih =>
    by_cases hemp : st.jobs = []
    · simpa [sjf_pop, hemp] using ih
    · obtain ⟨x, rest, hxr⟩ := List.exists_cons_of_ne_nil hemp
      by_cases hr : rest = []
      · subst hr
        simp only [sjf_pop, if_neg hemp, hxr]
        intro i hi hpos
        simp at hi
      · have htail : st.jobs.tail = rest := by rw [hxr]; rfl
        have hout : get1 st.jobs 0 = x := by rw [hxr]; rfl
        simp only [sjf_pop, if_neg hemp, htail, hout, if_neg hr]
        exact sift_down_heap _ _ (downExcept_pop (hxr ▸ ih) hr)

/-- Push a list of jobs in order (repeated sjf_push calls,
keeping the state of each call). -/
def sjf_pushAll (st : SjfState) (js : List Job) : SjfState :=
  js.foldl (fun s j => (sjf_push s j).2) st

/-- Pop n times, collecting the delivered jobs in order. -/
def sjf_popN (st : SjfState) (n : Nat) : List Job :=
  match n with
  | 0 => []
  | Nat.succ m =>
    match sjf_pop st with
    | (_, some j, st2) => j :: sjf_popN st2 m
    | (_, none, _) => []

theorem sjf_popN_zero (st : SjfState) : sjf_popN st 0 = [] := rfl

theorem sjf_popN_succ (st : SjfState) (n : Nat) :
    sjf_popN st (n + 1) =
      match sjf_pop st with
      | (_, some j, st2) => j :: sjf_popN st2 n
      | (_, none, _) => [] := rfl

/-- Scenario job (est_cost, arrival_ms) = (500, 1). -/
def jobA : Job := ⟨1, 500, 0, 1⟩
/-- Scenario job (est_cost, arrival_ms) = (100, 2). -/
def jobB : Job := ⟨2, 100, 0, 2⟩
/-- Scenario job (est_cost, arrival_ms) = (100, 3). -/
def jobC : Job := ⟨3, 100, 0, 3⟩
/-- Scenario job (est_cost, arrival_ms) = (0, 4). -/
def jobD : Job := ⟨4, 0, 0, 4⟩

/-- Claim C4: the binary min-heap property (for every non-root index i,
the parent at (i-1)/2 does not compare greater under the
(est_cost, arrival_ms) ordering) holds in every SJF state reachable from
the empty state by push and pop, i.e. after every operation. -/
theorem sjf_heap_invariant (st : SjfState) (h : SjfReachable st) :
    heapProp st.jobs :=
  reachable_heapProp h

/-- Witness for C4: the invariant instantiated at the concrete reachable
state obtained by pushing two jobs into a fresh SJF scheduler. -/
theorem sjf_heap_invariant_witness :
    heapProp (sjf_push (sjf_push (scheduler_sjf_create 4) jobA).2 jobB).2.jobs :=
  sjf_heap_invariant _
    (SjfReachable.push _ _ (SjfReachable.push _ _ (SjfReachable.create 4)))

/-- Claim C1: on every reachable SJF state with jobs queued, pop succeeds
and returns a queued job that minimizes the (est_cost, arrival_ms)
lexicographic order (no queued job compares strictly less); moreover the
concrete scenario pushing (500,1), (100,2), (100,3), (0,4) into an empty
scheduler and popping four times yields them in the order
(0,4), (100,2), (100,3), (500,1). -/
theorem sjf_pop_minimal :
    (∀ st : SjfState, SjfReachable st → st.jobs ≠ [] →
      (sjf_pop st).1 = 0 ∧
      ∃ out, (sjf_pop st).2.1 = some out ∧ out ∈ st.jobs ∧
        ∀ j ∈ st.jobs, job_less j out = false) ∧
    sjf_popN (sjf_pushAll (scheduler_sjf_create 1024) [jobA, jobB, jobC, jobD]) 4
      = [jobD, jobB, jobC, jobA] := by
  constructor
  · intro st hreach hne
    constructor
    · simp only [sjf_pop, if_neg hne]
      split <;> rfl
    · refine ⟨get1 st.jobs 0, ?_, ?_, ?_⟩
      · simp only [sjf_pop, if_neg hne]
        split <;> rfl
      · obtain ⟨x, rest, hxr⟩ := List.exists_cons_of_ne_nil hne
        rw [hxr]
        exact List.mem_cons_self _ _
      · intro j hj
        obtain ⟨i, hi, hji⟩ := List.getElem_of_mem hj
        rw [← hji, ← get1_eq_getElem hi]
        exact heap_root_min (reachable_heapProp hreach) i hi
  · have e1 : sjf_push (scheduler_sjf_create 1024) jobA
        = (0, ⟨[jobA], 1024⟩) := by
      simp [sjf_push, scheduler_sjf_create, sift_up]
    have e2 : sjf_push ⟨[jobA], 1024⟩ jobB = (0, ⟨[jobB, jobA], 1024⟩) := by
      simp [sjf_push, sift_up, swapL, get1, job_less, jobA, jobB]
    have e3 : sjf_push ⟨[jobB, jobA], 1024⟩ jobC
        = (0, ⟨[jobB, jobA, jobC], 1024⟩) := by
      simp [sjf_push, sift_up, swapL, get1, job_less, jobA, jobB, jobC]
    have e4 : sjf_push ⟨[jobB, jobA, jobC], 1024⟩ jobD
        = (0, ⟨[jobD, jobB, jobC, jobA], 1024⟩) := by
      simp [sjf_push, sift_up, swapL, get1, job_less, jobA, jobB, jobC, jobD]
    have p1 : sjf_pop ⟨[jobD, jobB, jobC, jobA], 1024⟩
        = (0, some jobD, ⟨[jobB, jobA, jobC], 1024⟩) := by
      simp [sjf_pop, sift_down, sd_smallest, swapL, get1, job_less,
        jobA, jobB, jobC, jobD]
    have p2 : sjf_pop ⟨[jobB, jobA, jobC], 1024⟩
        = (0, some jobB, ⟨[jobC, jobA], 1024⟩) := by
      simp [sjf_pop, sift_down, sd_smallest, swapL, get1, job_less,
        jobA, jobB, jobC]
    have p3 : sjf_pop ⟨[jobC, jobA], 1024⟩ = (0, some jobC, ⟨[jobA], 1024⟩) := by
      simp [sjf_pop, sift_down, sd_smallest, swapL, get1, job_less, jobA, jobC]
    have p4 : sjf_pop ⟨[jobA], 1024⟩ = (0, some jobA, ⟨[], 1024⟩) := by
      simp [sjf_pop, get1]
    have epush : sjf_pushAll (scheduler_sjf_create 1024) [jobA, jobB, jobC, jobD]
        = ⟨[jobD, jobB, jobC, jobA], 1024⟩ := by
      simp [sjf_pushAll, e1, e2, e3, e4]
    rw [epush]
    simp only [sjf_popN_succ, sjf_popN_zero, p1, p2, p3, p4]

/-- Witness for C1: the reachable-state clause instantiated at the
concrete singleton heap obtained by one push. -/
theorem sjf_pop_minimal_witness :
    (sjf_pop (sjf_push (scheduler_sjf_create 4) jobA).2).1 = 0 ∧
    ∃ out, (sjf_pop (sjf_push (scheduler_sjf_create 4) jobA).2).2.1 = some out ∧
      out ∈ (sjf_push (scheduler_sjf_create 4) jobA).2.jobs ∧
      ∀ j ∈ (sjf_push (scheduler_sjf_create 4) jobA).2.jobs,
        job_less j out = false :=
  sjf_pop_minimal.1 _ (SjfReachable.push _ _ (SjfReachable.create 4))
    (by simp [sjf_push, scheduler_sjf_create, sift_up])

/-! FIFO ring buffer scheduler (fifo_state): a backing array of
`capacity` slots with head, tail and count cursors. -/

/-- FIFO scheduler internal state. The backing calloc'd array is kept at
its full fixed length; head/tail/count are the C cursors. -/
structure FifoState where
  arr : List Job
  capacity : Nat
  head : Nat
  tail : Nat
  count : Nat
deriving Repr, DecidableEq

/-- scheduler_fifo_create: zeroed array of capacity slots, all cursors 0. -/
def scheduler_fifo_create (capacity : Nat) : FifoState :=
  { arr := List.replicate capacity default, capacity := capacity,
    head := 0, tail := 0, count := 0 }

/-- fifo_push: -1 when count equals capacity; otherwise write at tail,
advance tail mod capacity, increment count. -/
def fifo_push (st : FifoState) (j : Job) : Int × FifoState :=
  if st.count = st.capacity then (-1, st)
  else (0, { st with arr := st.arr.set st.tail j,
                     tail := (st.tail + 1) % st.capacity,
                     count := st.count + 1 })

/-- fifo_pop: -1 when count is zero; otherwise read at head, advance head
mod capacity, decrement count. -/
def fifo_pop (st : FifoState) : Int × Option Job × FifoState :=
  if st.count = 0 then (-1, none, st)
  else (0, some (get1 st.arr st.head),
    { st with head := (st.head + 1) % st.capacity, count := st.count - 1 })

/-- The FIFO states reachable from a freshly created scheduler by any
sequence of push and pop calls. -/
inductive FifoReachable : FifoState → Prop where
  | create (capacity : Nat) : FifoReachable (scheduler_fifo_create capacity)
  | push (st : FifoState) (j : Job) :
      FifoReachable st → FifoReachable (fifo_push st j).2
  | pop (st : FifoState) : FifoReachable st → FifoReachable (fifo_pop st).2.2

/-- Structural invariant of the ring buffer: full backing array, count
within capacity, tail positioned count slots after head (mod capacity),
head in range. -/
def FifoInv (st : FifoState) : Prop :=
  st.arr.length = st.capacity ∧
  st.count ≤ st.capacity ∧
  st.tail = (st.head + st.count) % st.capacity ∧
  (0 < st.capacity → st.head < st.capacity)

/-- The abstract queue represented by a ring-buffer state: the count
slots starting at head, in ring order. -/
def absQ (st : FifoState) : List Job :=
  (List.range st.count).map (fun i => get1 st.arr ((st.head + i) % st.capacity))

theorem fifo_create_inv (capacity : Nat) :
    FifoInv (scheduler_fifo_create capacity) := by
  refine ⟨by simp [scheduler_fifo_create], by simp [scheduler_fifo_create], ?_, ?_⟩
  · simp [scheduler_fifo_create]
  · intro h; simpa [scheduler_fifo_create] using h

theorem absQ_create (capacity : Nat) : absQ (scheduler_fifo_create capacity) = [] := by
  simp [absQ, scheduler_fifo_create]

theorem add_mod_inj {cap h a b : Nat} (ha : a < cap) (hb : b < cap)
    (heq : (h + a) % cap = (h + b) % cap) : a = b := by
  have h2 : a ≡ b [MOD cap] := Nat.ModEq.add_left_cancel' h heq
  have := h2.eq_of_lt_of_lt ha hb
  exact this

theorem fifo_push_ok {st : FifoState} {j : Job} (hinv : FifoInv st)
    (hroom : st.count < st.capacity) :
    (fifo_push st j).1 = 0 ∧
    FifoInv (fifo_push st j).2 ∧
    absQ (fifo_push st j).2 = absQ st ++ [j] ∧
    (fifo_push st j).2.count = st.count + 1 ∧
    (fifo_push st j).2.capacity = st.capacity := by
  obtain ⟨hlen, hle, htail, hhead⟩ := hinv
  have hne : st.count ≠ st.capacity := by omega
  have hcap : 0 < st.capacity := by omega
  have htlt : st.tail < st.capacity := by rw [htail]; exact Nat.mod_lt _ hcap
  have hstep : fifo_push st j =
      (0, { st with arr := st.arr.set st.tail j,
                    tail := (st.tail + 1) % st.capacity,
                    count := st.count + 1 }) := by
    rw [fifo_push, if_neg hne]
  rw [hstep]
  refine ⟨rfl, ⟨?_, ?_, ?_, ?_⟩, ?_, rfl, rfl⟩
  · show (st.arr.set st.tail j).length = st.capacity
    simpa using hlen
  · show st.count + 1 ≤ st.capacity
    omega
  · show (st.tail + 1) % st.capacity = (st.head + (st.count + 1)) % st.capacity
    rw [htail, Nat.mod_add_mod, Nat.add_assoc]
  · intro h
    show st.head < st.capacity
    exact hhead hcap
  · show (List.range (st.count + 1)).map
        (fun i => get1 (st.arr.set st.tail j) ((st.head + i) % st.capacity))
      = absQ st ++ [j]
    rw [List.range_succ, List.map_append]
    congr 1
    · rw [absQ]
      apply List.map_congr_left
      intro i hi
      rw [List.mem_range] at hi
      apply get1_set_ne
      intro hc
      rw [htail] at hc
      have : st.count = i := add_mod_inj (by omega) (by omega) hc
      omega
    · simp only [List.map_cons, List.map_nil]
      congr 1
      rw [← htail]
      exact get1_set_self (by rw [hlen]; exact htlt)

theorem fifo_pop_ok {st : FifoState} (hinv : FifoInv st)
    (hcnt : 0 < st.count) :
    (fifo_pop st).1 = 0 ∧
    (fifo_pop st).2.1 = some (get1 st.arr st.head) ∧
    FifoInv (fifo_pop st).2.2 ∧
    absQ st = get1 st.arr st.head :: absQ (fifo_pop st).2.2 ∧
    (fifo_pop st).2.2.count = st.count - 1 := by
  obtain ⟨hlen, hle, htail, hhead⟩ := hinv
  have hne : st.count ≠ 0 := by omega
  have hcap : 0 < st.capacity := by omega
  have hstep : fifo_pop st = (0, some (get1 st.arr st.head),
      { st with head := (st.head + 1) % st.capacity,
                count := st.count - 1 }) := by
    rw [fifo_pop, if_neg hne]
  rw [hstep]
  refine ⟨rfl, rfl, ⟨hlen, ?_, ?_, ?_⟩, ?_, rfl⟩
  · show st.count - 1 ≤ st.capacity
    omega
  · show st.tail = ((st.head + 1) % st.capacity + (st.count - 1)) % st.capacity
    rw [htail, Nat.mod_add_mod]
    congr 1
    omega
  · intro h
    show (st.head + 1) % st.capacity < st.capacity
    exact Nat.mod_lt _ hcap
  · show absQ st = get1 st.arr st.head ::
        (List.range (st.count - 1)).map
          (fun i => get1 st.arr (((st.head + 1) % st.capacity + i) % st.capacity))
    rw [absQ]
    rw [show st.count = (st.count - 1) + 1 by omega, List.range_succ_eq_map]
    simp only [List.map_cons, List.map_map]
    congr 1
    · rw [Nat.add_zero, Nat.mod_eq_of_lt (hhead hcap)]
    · apply List.map_congr_left
      intro i hi
      simp only [Function.comp, Nat.succ_eq_add_one]
      rw [Nat.mod_add_mod]
      have e1 : st.head + 1 + i = st.head + (i + 1) := by omega
      rw [e1]

/-- Push a list of jobs in order into a FIFO scheduler. -/
def fifo_pushAll (st : FifoState) (js : List Job) : FifoState :=
  js.foldl (fun s j => (fifo_push s j).2) st

/-- Pop n times from a FIFO scheduler, collecting the delivered jobs. -/
def fifo_popN (st : FifoState) (n : Nat) : List Job :=
  match n with
  | 0 => []
  | Nat.succ m =>
    match fifo_pop st with
    | (_, some j, st2) => j :: fifo_popN st2 m
    | (_, none, _) => []

theorem fifo_popN_succ (st : FifoState) (n : Nat) :
    fifo_popN st (n + 1) =
      match fifo_pop st with
      | (_, some j, st2) => j :: fifo_popN st2 n
      | (_, none, _) => [] := rfl

theorem fifo_pushAll_ok : ∀ (S : List Job) (st : FifoState), FifoInv st →
    st.count + S.length ≤ st.capacity →
    FifoInv (fifo_pushAll st S) ∧
    absQ (fifo_pushAll st S) = absQ st ++ S ∧
    (fifo_pushAll st S).count = st.count + S.length
  | [], st, hinv, _ => by
    refine ⟨hinv, by simp [fifo_pushAll], by simp [fifo_pushAll]⟩
  | j :: rest, st, hinv, hroom => by
    have hstep := fifo_push_ok (j := j) hinv (by simp at hroom; omega)
    obtain ⟨_, hinv2, habs2, hcnt2, hcap2⟩ := hstep
    have hrest := fifo_pushAll_ok rest (fifo_push st j).2 hinv2
      (by rw [hcnt2, hcap2]; simp at hroom ⊢; omega)
    obtain ⟨hinv3, habs3, hcnt3⟩ := hrest
    have hfold : fifo_pushAll st (j :: rest) = fifo_pushAll (fifo_push st j).2 rest := by
      simp [fifo_pushAll]
    rw [hfold]
    refine ⟨hinv3, ?_, ?_⟩
    · rw [habs3, habs2]
      simp
    · rw [hcnt3, hcnt2]
      simp
      omega

theorem fifo_popN_take : ∀ (n : Nat) (st : FifoState), FifoInv st →
    n ≤ st.count → fifo_popN st n = (absQ st).take n
  | 0, st, _, _ => by simp [fifo_popN]
  | Nat.succ m, st, hinv, hn => by
    have hstep := fifo_pop_ok hinv (by omega)
    obtain ⟨hrc, hout, hinv2, habs, hcnt⟩ := hstep
    have hrest := fifo_popN_take m (fifo_pop st).2.2 hinv2 (by omega)
    rw [fifo_popN_succ]
    have hpop : fifo_pop st = ((fifo_pop st).1, (fifo_pop st).2.1, (fifo_pop st).2.2) := rfl
    rw [hpop, hrc, hout, habs]
    simpa using hrest

/-- Claim C2: pushing any sequence S with |S| within capacity into an
empty FIFO scheduler and then popping |S| times yields exactly S. -/
theorem fifo_roundtrip (S : List Job) (cap : Nat) (h : S.length ≤ cap) :
    fifo_popN (fifo_pushAll (scheduler_fifo_create cap) S) S.length = S := by
  have hinv := fifo_create_inv cap
  have hroom : (scheduler_fifo_create cap).count + S.length
      ≤ (scheduler_fifo_create cap).capacity := by
    simp [scheduler_fifo_create]
    omega
  obtain ⟨hinv2, habs, hcnt⟩ := fifo_pushAll_ok S (scheduler_fifo_create cap) hinv hroom
  rw [fifo_popN_take S.length _ hinv2
    (by rw [hcnt]; simp [scheduler_fifo_create])]
  rw [habs, absQ_create]
  simp

/-- Witness for C2: the round trip at the concrete sequence of two jobs
with capacity 2. -/
theorem fifo_roundtrip_witness :
    ([jobA, jobB] : List Job).length ≤ 2 ∧
    fifo_popN (fifo_pushAll (scheduler_fifo_create 2) [jobA, jobB]) 2
      = [jobA, jobB] :=
  ⟨by decide, fifo_roundtrip [jobA, jobB] 2 (by decide)⟩

/-- Claim C3: on every reachable state of either scheduler, push returns
-1 (FULL) iff count equals capacity and 0 (success) otherwise, and pop
returns -1 (EMPTY) iff count is zero and 0 otherwise. For the SJF model
the count is the length of the active job list. -/
theorem sched_full_empty_iff :
    (∀ (st : FifoState) (j : Job), FifoReachable st →
      ((fifo_push st j).1 = -1 ↔ st.count = st.capacity) ∧
      ((fifo_push st j).1 = 0 ↔ st.count ≠ st.capacity) ∧
      ((fifo_pop st).1 = -1 ↔ st.count = 0) ∧
      ((fifo_pop st).1 = 0 ↔ st.count ≠ 0)) ∧
    (∀ (st : SjfState) (j : Job), SjfReachable st →
      ((sjf_push st j).1 = -1 ↔ st.jobs.length = st.capacity) ∧
      ((sjf_push st j).1 = 0 ↔ st.jobs.length ≠ st.capacity) ∧
      ((sjf_pop st).1 = -1 ↔ st.jobs.length = 0) ∧
      ((sjf_pop st).1 = 0 ↔ st.jobs.length ≠ 0)) := by
  constructor
  · intro st j _
    refine ⟨?_, ?_, ?_, ?_⟩
    · rw [fifo_push]; split_ifs with h <;> simp [h]
    · rw [fifo_push]; split_ifs with h <;> simp [h]
    · rw [fifo_pop]; split_ifs with h <;> simp [h]
    · rw [fifo_pop]; split_ifs with h <;> simp [h]
  · intro st j _
    refine ⟨?_, ?_, ?_, ?_⟩
    · rw [sjf_push]; split_ifs with h <;> simp [h]
    · rw [sjf_push]; split_ifs with h <;> simp [h]
    · rw [sjf_pop]
      split_ifs with h
      · simp [h]
      · have hlen : st.jobs.length ≠ 0 := fun hc => h (List.length_eq_zero.mp hc)
        by_cases ht : st.jobs.tail = [] <;> simp [ht, hlen]
    · rw [sjf_pop]
      split_ifs with h
      · simp [h, List.length_eq_zero]
      · have hlen : st.jobs.length ≠ 0 := fun hc => h (List.length_eq_zero.mp hc)
        by_cases ht : st.jobs.tail = [] <;> simp [ht, hlen]

/-- Witness for C3: the equivalences instantiated at freshly created
schedulers of capacity 2. -/
theorem sched_full_empty_iff_witness :
    (((fifo_push (scheduler_fifo_create 2) jobA).1 = -1 ↔
        (scheduler_fifo_create 2).count = (scheduler_fifo_create 2).capacity) ∧
      ((fifo_push (scheduler_fifo_create 2) jobA).1 = 0 ↔
        (scheduler_fifo_create 2).count ≠ (scheduler_fifo_create 2).capacity) ∧
      ((fifo_pop (scheduler_fifo_create 2)).1 = -1 ↔
        (scheduler_fifo_create 2).count = 0) ∧
      ((fifo_pop (scheduler_fifo_create 2)).1 = 0 ↔
        (scheduler_fifo_create 2).count ≠ 0)) ∧
    (((sjf_push (scheduler_sjf_create 2) jobA).1 = -1 ↔
        (scheduler_sjf_create 2).jobs.length = (scheduler_sjf_create 2).capacity) ∧
      ((sjf_push (scheduler_sjf_create 2) jobA).1 = 0 ↔
        (scheduler_sjf_create 2).jobs.length ≠ (scheduler_sjf_create 2).capacity) ∧
      ((sjf_pop (scheduler_sjf_create 2)).1 = -1 ↔
        (scheduler_sjf_create 2).jobs.length = 0) ∧
      ((sjf_pop (scheduler_sjf_create 2)).1 = 0 ↔
        (scheduler_sjf_create 2).jobs.length ≠ 0)) :=
  ⟨sched_full_empty_iff.1 _ jobA (FifoReachable.create 2),
   sched_full_empty_iff.2 _ jobA (SjfReachable.create 2)⟩

/-- Claim C9: a failing operation leaves either scheduler state entirely
unchanged: a push that returns -1 (FULL) returns the input state, and a
pop that returns -1 (EMPTY) returns the input state and writes no out
job. -/
theorem sched_error_atomicity :
    (∀ (st : FifoState) (j : Job),
      (fifo_push st j).1 = -1 → (fifo_push st j).2 = st) ∧
    (∀ st : FifoState,
      (fifo_pop st).1 = -1 → (fifo_pop st).2.2 = st ∧ (fifo_pop st).2.1 = none) ∧
    (∀ (st : SjfState) (j : Job),
      (sjf_push st j).1 = -1 → (sjf_push st j).2 = st) ∧
    (∀ st : SjfState,
      (sjf_pop st).1 = -1 → (sjf_pop st).2.2 = st ∧ (sjf_pop st).2.1 = none) := by
  refine ⟨?_, ?_, ?_, ?_⟩
  · intro st j h
    by_cases hc : st.count = st.capacity
    · simp [fifo_push, hc]
    · simp [fifo_push, hc] at h
  · intro st h
    by_cases hc : st.count = 0
    · simp [fifo_pop, hc]
    · simp [fifo_pop, hc] at h
  · intro st j h
    by_cases hc : st.jobs.length = st.capacity
    · simp [sjf_push, hc]
    · simp [sjf_push, hc] at h
  · intro st h
    by_cases hc : st.jobs = []
    · simp [sjf_pop, hc]
    · exfalso
      simp only [sjf_pop, if_neg hc] at h
      revert h
      split <;> simp

/-- Witness for C9: failing push on a capacity-0 FIFO and SJF scheduler
and failing pop on fresh (empty) schedulers leave the states unchanged. -/
theorem sched_error_atomicity_witness :
    (fifo_push (scheduler_fifo_create 0) jobA).2 = scheduler_fifo_create 0 ∧
    ((fifo_pop (scheduler_fifo_create 2)).2.2 = scheduler_fifo_create 2 ∧
      (fifo_pop (scheduler_fifo_create 2)).2.1 = none) ∧
    (sjf_push (scheduler_sjf_create 0) jobA).2 = scheduler_sjf_create 0 ∧
    ((sjf_pop (scheduler_sjf_create 2)).2.2 = scheduler_sjf_create 2 ∧
      (sjf_pop (scheduler_sjf_create 2)).2.1 = none) :=
  ⟨sched_error_atomicity.1 _ jobA (by decide),
   sched_error_atomicity.2.1 _ (by decide),
   sched_error_atomicity.2.2.1 _ jobA (by decide),
   sched_error_atomicity.2.2.2 _ (by decide)⟩

/-! Request handling (http.c) and the acceptor estimator. Strings are
modelled as Lean strings; sscanf %s tokens, strstr/strcasestr substring
scans and strncmp prefix tests are modelled over their character lists. -/

/-- C isspace, as used by sscanf %s token skipping. -/
def isSpaceC (c : Char) : Bool :=
  c == ' ' || c == '\t' || c == '\n' || c == '\x0b' || c == '\x0c' || c == '\r'

/-- Skip leading whitespace (sscanf before a %s conversion). -/
def dropWS (s : List Char) : List Char :=
  match s with
  | [] => []
  | c :: rest => if isSpaceC c then dropWS rest else c :: rest

/-- Consume up to w leading non-whitespace characters (a %<w>s token). -/
def takeTok (w : Nat) (s : List Char) : List Char × List Char :=
  match w, s with
  | 0, s2 => ([], s2)
  | _ + 1, [] => ([], [])
  | w2 + 1, c :: rest =>
    if isSpaceC c then ([], c :: rest)
    else
      let tr := takeTok w2 rest
      (c :: tr.1, tr.2)

/-- One %<w>s conversion: skip whitespace; fail at end of input. -/
def nextTok (w : Nat) (s : List Char) : Option (List Char × List Char) :=
  match dropWS s with
  | [] => none
  | c :: rest => some (takeTok w (c :: rest))

/-- sscanf(buf, "%15s %1023s %15s", method, path, version): the number
of converted tokens and the three values; unconverted ones keep the C
initial contents (version is initialized to the empty string). -/
def parse3 (buf : String) : Nat × String × String × String :=
  match nextTok 15 buf.data with
  | none => (0, "", "", "")
  | some (m, r1) =>
    match nextTok 1023 r1 with
    | none => (1, ⟨m⟩, "", "")
    | some (p, r2) =>
      match nextTok 15 r2 with
      | none => (2, ⟨m⟩, ⟨p⟩, "")
      | some (v, _) => (3, ⟨m⟩, ⟨p⟩, ⟨v⟩)

/-- Does cs start with ds? (character-exact). -/
def startsWithL : List Char → List Char → Bool
  | _, [] => true
  | [], _ :: _ => false
  | c :: cs, d :: ds => c == d && startsWithL cs ds

/-- strstr: does hay contain needle as a substring? -/
def containsL : List Char → List Char → Bool
  | [], needle => startsWithL [] needle
  | c :: rest, needle => startsWithL (c :: rest) needle || containsL rest needle

/-- strcasestr: case-insensitive substring scan, modelled by lowering
both sides. -/
def containsCI (hay needle : String) : Bool :=
  containsL (hay.data.map Char.toLower) (needle.data.map Char.toLower)

/-- sanitize_path's test strstr(path, "..") != NULL. -/
def hasDotDot (p : String) : Bool :=
  containsL p.data ("..".data)

/-- strncmp(version, "HTTP/1.0", 8) == 0. -/
def isHTTP10 (v : String) : Bool :=
  startsWithL v.data ("HTTP/1.0".data)

/-- The keep-alive decision of handle_client: default close only for
HTTP/1.0; a case-insensitive scan of the whole buffer for a
newline-preceded Connection: close forces close, otherwise a
newline-preceded Connection: keep-alive forces keep-alive. -/
def connShouldClose (buf version : String) : Bool :=
  if containsCI buf "\r\nConnection: close" = true ∨
      containsCI buf "\nConnection: close" = true then true
  else if containsCI buf "\r\nConnection: keep-alive" = true ∨
      containsCI buf "\nConnection: keep-alive" = true then false
  else isHTTP10 version

/-- Drop one leading slash from the request path. -/
def stripSlash (p : String) : String :=
  match p.data with
  | '/' :: r => ⟨r⟩
  | _ => p

/-- Resolve the filesystem path: empty or "/" maps to docroot/index.html,
anything else to docroot/path-minus-leading-slash. -/
def buildPath (docroot p : String) : String :=
  if p = "" ∨ p = "/" then docroot ++ "/index.html"
  else docroot ++ "/" ++ stripSlash p

/-- Result of stat: size (st_size) and whether S_ISDIR holds. -/
structure StatInfo where
  size : Int
  isDir : Bool
deriving Repr, DecidableEq

/-- The filesystem as an oracle: the stat result per path (none when
stat fails) and whether open(path, O_RDONLY) succeeds. -/
structure Fs where
  stat : String → Option StatInfo
  openOk : String → Bool

/-- MAX_KEEPALIVE_REQUESTS in http.c. -/
def MAX_KEEPALIVE_REQUESTS : Nat := 8

/-- Outcome of one request iteration in handle_client: respond with the
given status then return -1 (closeErr), respond then return 0 (closeOk),
or respond and continue reading the next request on the connection. -/
inductive ReqStep where
  | closeErr (status : Nat)
  | closeOk (status : Nat)
  | continueNext (status : Nat)
deriving Repr, DecidableEq

/-- The HTTP status a request outcome responded with. -/
def statusOf : ReqStep → Nat
  | .closeErr s => s
  | .closeOk s => s
  | .continueNext s => s

/-- The tail of a successful iteration: open the file (failure is 500
and return -1), send the 200 response, then close when the keep-alive
decision says close or the keep-alive cap is reached, else continue. -/
def serveFile (fs : Fs) (sc : Bool) (served : Nat) (fp : String) : ReqStep :=
  if fs.openOk fp = true then
    if sc = true then .closeOk 200
    else if served + 1 ≥ MAX_KEEPALIVE_REQUESTS then .closeOk 200
    else .continueNext 200
  else .closeErr 500

/-- One iteration of handle_client's keep-alive loop (http.c), applied
to a successfully read request buffer. served counts the requests
already completed on this connection. Socket writes and the malloc in
the directory branch are modelled as succeeding; neither affects the
claims below. -/
def handleRequest (fs : Fs) (docroot : String) (buf : String)
    (served : Nat) : ReqStep :=
  let pr := parse3 buf
  if pr.1 < 2 then .closeErr 400
  else
    let method := pr.2.1
    let path := pr.2.2.1
    let version := pr.2.2.2
    let sc := connShouldClose buf version
    if method ≠ "GET" ∧ method ≠ "HEAD" then .closeErr 405
    else if hasDotDot path = true then
      if sc = true then .closeOk 403 else .continueNext 403
    else
      let fp := buildPath docroot path
      match fs.stat fp with
      | none => if sc = true then .closeOk 404 else .continueNext 404
      | some info =>
        if info.isDir = true then
          match fs.stat (fp ++ "/index.html") with
          | none => if sc = true then .closeOk 403 else .continueNext 403
          | some _ => serveFile fs sc served (fp ++ "/index.html")
        else serveFile fs sc served fp

/-- The acceptor's est_cost computation (the accept loop in main): 0
when the peek returned no data; otherwise parse method and path with
bounded tokens, reject paths containing "..", resolve the candidate
filesystem path, stat it and adopt st_size; every failing step leaves
est = 0. -/
def acceptor_est (fs : Fs) (docroot : String) (peek : Option String) : Int :=
  match peek with
  | none => 0
  | some buf =>
    let pr := parse3 buf
    if 2 ≤ pr.1 then
      if hasDotDot pr.2.2.1 = true then 0
      else
        match fs.stat (buildPath docroot pr.2.2.1) with
        | some info => info.size
        | none => 0
    else 0

/-- The job constructed and submitted by the acceptor. -/
def acceptorJob (fs : Fs) (docroot : String) (peek : Option String)
    (fd : Int) (now : Nat) : Job :=
  { client_fd := fd, est_cost := acceptor_est fs docroot peek,
    priority := 0, arrival_ms := now }

/-- Claim C10: when the request buffer contains both a newline-preceded
case-insensitive Connection: close and a newline-preceded
case-insensitive Connection: keep-alive, the close directive wins
regardless of the order of the two headers in the buffer and of the
HTTP version token: the computed decision is close. -/
theorem connection_close_wins (buf version : String)
    (hclose : containsCI buf "\nConnection: close" = true)
    (hka : containsCI buf "\nConnection: keep-alive" = true) :
    connShouldClose buf version = true := by
  rw [connShouldClose, if_pos (Or.inr hclose)]

/-- Witness for C10: a concrete buffer listing keep-alive before close
still yields the close decision. -/
theorem connection_close_wins_witness :
    containsCI "GET / HTTP/1.1\r\nConnection: keep-alive\r\nConnection: close\r\n\r\n"
      "\nConnection: close" = true ∧
    containsCI "GET / HTTP/1.1\r\nConnection: keep-alive\r\nConnection: close\r\n\r\n"
      "\nConnection: keep-alive" = true ∧
    connShouldClose
      "GET / HTTP/1.1\r\nConnection: keep-alive\r\nConnection: close\r\n\r\n"
      "HTTP/1.1" = true :=
  ⟨by decide, by decide,
   connection_close_wins _ "HTTP/1.1" (by decide) (by decide)⟩

/-- Counterexample to claim C5 as stated: on a second request (served =
1) whose method is POST, the keep-alive decision applies (the computed
Connection decision is keep-alive), the response is 405, and yet
handle_client terminates the connection (returns -1) instead of
continuing. -/
theorem handle_client_405_closes_cex :
    handleRequest { stat := fun _ => none, openOk := fun _ => false } "./www"
        "POST /x HTTP/1.1\r\n\r\n" 1 = ReqStep.closeErr 405 ∧
    connShouldClose "POST /x HTTP/1.1\r\n\r\n"
        (parse3 "POST /x HTTP/1.1\r\n\r\n").2.2.2 = false := by
  constructor
  · decide
  · decide

/-- Exhaustive case analysis of one handle_client iteration: the
possible outcomes and, for the 403/404 sub-request validation failures,
their dependence on the keep-alive decision. -/
theorem handleRequest_cases (fs : Fs) (docroot buf : String) (served : Nat) :
    handleRequest fs docroot buf served = ReqStep.closeErr 400 ∨
    handleRequest fs docroot buf served = ReqStep.closeErr 405 ∨
    handleRequest fs docroot buf served = ReqStep.closeErr 500 ∨
    (∃ s, (s = 403 ∨ s = 404) ∧
      handleRequest fs docroot buf served =
        (if connShouldClose buf (parse3 buf).2.2.2 = true
          then ReqStep.closeOk s else ReqStep.continueNext s)) ∨
    handleRequest fs docroot buf served = ReqStep.closeOk 200 ∨
    handleRequest fs docroot buf served = ReqStep.continueNext 200 := by
  show _ ∨ _
  simp only [handleRequest, serveFile]
  split
  · exact Or.inl rfl
  · split
    · exact Or.inr (Or.inl rfl)
    · split
      · exact Or.inr (Or.inr (Or.inr (Or.inl ⟨403, Or.inl rfl, rfl⟩)))
      · split
        · exact Or.inr (Or.inr (Or.inr (Or.inl ⟨404, Or.inr rfl, rfl⟩)))
        · split
          · split
            · exact Or.inr (Or.inr (Or.inr (Or.inl ⟨403, Or.inl rfl, rfl⟩)))
            · split
              · split
                · exact Or.inr (Or.inr (Or.inr (Or.inr (Or.inl rfl))))
                · split
                  · exact Or.inr (Or.inr (Or.inr (Or.inr (Or.inl rfl))))
                  · exact Or.inr (Or.inr (Or.inr (Or.inr (Or.inr rfl))))
              · exact Or.inr (Or.inr (Or.inl rfl))
          · split
            · split
              · exact Or.inr (Or.inr (Or.inr (Or.inr (Or.inl rfl))))
              · split
                · exact Or.inr (Or.inr (Or.inr (Or.inr (Or.inl rfl))))
                · exact Or.inr (Or.inr (Or.inr (Or.inr (Or.inr rfl))))
            · exact Or.inr (Or.inr (Or.inl rfl))

/-- Claim C5 (amended): in handle_client, a validation failure answered
with 403 or 404 keeps the connection alive (the handler proceeds to the
next request) whenever the keep-alive decision applies; validation
failures answered with 405 or 400 always terminate the connection. -/
theorem handle_client_subrequest_amended (fs : Fs) (docroot buf : String)
    (served : Nat) :
    ((statusOf (handleRequest fs docroot buf served) = 403 ∨
        statusOf (handleRequest fs docroot buf served) = 404) →
      connShouldClose buf (parse3 buf).2.2.2 = false →
      handleRequest fs docroot buf served
        = ReqStep.continueNext (statusOf (handleRequest fs docroot buf served))) ∧
    (statusOf (handleRequest fs docroot buf served) = 405 →
      handleRequest fs docroot buf served = ReqStep.closeErr 405) ∧
    (statusOf (handleRequest fs docroot buf served) = 400 →
      handleRequest fs docroot buf served = ReqStep.closeErr 400) := by
  rcases handleRequest_cases fs docroot buf served with h | h | h | ⟨s, hs, h⟩ | h | h
  · refine ⟨?_, ?_, ?_⟩ <;> simp [h, statusOf]
  · refine ⟨?_, ?_, ?_⟩ <;> simp [h, statusOf]
  · refine ⟨?_, ?_, ?_⟩ <;> simp [h, statusOf]
  · have hcond : ¬ (connShouldClose buf (parse3 buf).2.2.2 = true →
        False) → connShouldClose buf (parse3 buf).2.2.2 = true := by tauto
    refine ⟨?_, ?_, ?_⟩
    · intro hst hsc
      have hne : ¬ connShouldClose buf (parse3 buf).2.2.2 = true := by
        simp [hsc]
      rw [h, if_neg hne]
      simp [statusOf]
    · intro hst
      exfalso
      rw [h] at hst
      split at hst <;> simp [statusOf] at hst <;> omega
    · intro hst
      exfalso
      rw [h] at hst
      split at hst <;> simp [statusOf] at hst <;> omega
  · refine ⟨?_, ?_, ?_⟩ <;> simp [h, statusOf]
  · refine ⟨?_, ?_, ?_⟩ <;> simp [h, statusOf]

/-- Witness for C5 (amended): a 404 on a second request with keep-alive
in force continues the connection. -/
theorem handle_client_subrequest_amended_witness :
    handleRequest { stat := fun _ => none, openOk := fun _ => false } "./www"
        "GET /x HTTP/1.1\r\n\r\n" 1
      = ReqStep.continueNext (statusOf (handleRequest
          { stat := fun _ => none, openOk := fun _ => false } "./www"
          "GET /x HTTP/1.1\r\n\r\n" 1)) :=
  (handle_client_subrequest_amended _ _ _ _).1 (Or.inr (by decide)) (by decide)

/-- Claim C7: the submitted job's est_cost equals the stat size of the
candidate filesystem path exactly when the peek returned data, the
method and path parsed (at least two bounded tokens), the path has no
".." substring, and the stat succeeded; when any of these steps fails,
est_cost is 0. -/
theorem acceptor_est_cost (fs : Fs) (docroot : String) (peek : Option String) :
    (∀ buf info, peek = some buf → 2 ≤ (parse3 buf).1 →
      hasDotDot (parse3 buf).2.2.1 = false →
      fs.stat (buildPath docroot (parse3 buf).2.2.1) = some info →
      ∀ fd now, (acceptorJob fs docroot peek fd now).est_cost = info.size) ∧
    (peek = none →
      ∀ fd now, (acceptorJob fs docroot peek fd now).est_cost = 0) ∧
    (∀ buf, peek = some buf → (parse3 buf).1 < 2 →
      ∀ fd now, (acceptorJob fs docroot peek fd now).est_cost = 0) ∧
    (∀ buf, peek = some buf → hasDotDot (parse3 buf).2.2.1 = true →
      ∀ fd now, (acceptorJob fs docroot peek fd now).est_cost = 0) ∧
    (∀ buf, peek = some buf →
      fs.stat (buildPath docroot (parse3 buf).2.2.1) = none →
      ∀ fd now, (acceptorJob fs docroot peek fd now).est_cost = 0) := by
  refine ⟨?_, ?_, ?_, ?_, ?_⟩
  · intro buf info hpeek hcount hdd hstat fd now
    subst hpeek
    simp [acceptorJob, acceptor_est, hcount, hdd, hstat]
  · intro hpeek fd now
    subst hpeek
    simp [acceptorJob, acceptor_est]
  · intro buf hpeek hcount fd now
    subst hpeek
    have : ¬ 2 ≤ (parse3 buf).1 := by omega
    simp [acceptorJob, acceptor_est, this]
  · intro buf hpeek hdd fd now
    subst hpeek
    by_cases hcount : 2 ≤ (parse3 buf).1
    · simp [acceptorJob, acceptor_est, hcount, hdd]
    · simp [acceptorJob, acceptor_est, hcount]
  · intro buf hpeek hstat fd now
    subst hpeek
    by_cases hcount : 2 ≤ (parse3 buf).1
    · by_cases hdd : hasDotDot (parse3 buf).2.2.1 = true
      · simp [acceptorJob, acceptor_est, hcount, hdd]
      · simp [acceptorJob, acceptor_est, hcount, hdd, hstat]
    · simp [acceptorJob, acceptor_est, hcount]

/-- Witness for C7: the success clause at a concrete filesystem whose
stat reports a 5-byte file. -/
theorem acceptor_est_cost_witness :
    (acceptorJob { stat := fun _ => some ⟨5, false⟩, openOk := fun _ => true }
        "./www" (some "GET /a HTTP/1.1") 7 99).est_cost = 5 :=
  (acceptor_est_cost _ "./www" _).1 "GET /a HTTP/1.1" ⟨5, false⟩ rfl
    (by decide) (by decide) rfl 7 99

/-! Metrics counter bank (metrics.c). The counters are C uint64 atomics;
atomic_fetch_add wraps modulo 2^64. -/

/-- The counters touched by metrics_record_request. -/
structure Metrics where
  requests_total : Nat
  bytes_total : Nat
  errors_total : Nat
  sum_latency_ms : Nat
deriving Repr, DecidableEq

/-- metrics_record_request(latency_ms, bytes, status): add 1 to
requests_total, bytes to bytes_total, latency_ms to sum_latency_ms, and
1 to errors_total exactly when status < 200 or status >= 400, all as
uint64 additions. -/
def metrics_record_request (m : Metrics) (latency_ms bytes : Nat)
    (status : Int) : Metrics :=
  { requests_total := (m.requests_total + 1) % 2 ^ 64,
    bytes_total := (m.bytes_total + bytes) % 2 ^ 64,
    sum_latency_ms := (m.sum_latency_ms + latency_ms) % 2 ^ 64,
    errors_total :=
      if status < 200 ∨ 400 ≤ status then (m.errors_total + 1) % 2 ^ 64
      else m.errors_total }

/-- Claim C8: each call adds exactly 1 to requests_total, bytes to
bytes_total and latency_ms to sum_latency_ms (as uint64 counters), and
changes errors_total (by exactly 1) iff status < 200 or status >= 400;
otherwise errors_total is unchanged. -/
theorem metrics_record_request_spec (m : Metrics) (latency_ms bytes : Nat)
    (status : Int) (hm : m.errors_total < 2 ^ 64) :
    (metrics_record_request m latency_ms bytes status).requests_total
      = (m.requests_total + 1) % 2 ^ 64 ∧
    (metrics_record_request m latency_ms bytes status).bytes_total
      = (m.bytes_total + bytes) % 2 ^ 64 ∧
    (metrics_record_request m latency_ms bytes status).sum_latency_ms
      = (m.sum_latency_ms + latency_ms) % 2 ^ 64 ∧
    ((status < 200 ∨ 400 ≤ status) →
      (metrics_record_request m latency_ms bytes status).errors_total
        = (m.errors_total + 1) % 2 ^ 64) ∧
    (¬ (status < 200 ∨ 400 ≤ status) →
      (metrics_record_request m latency_ms bytes status).errors_total
        = m.errors_total) ∧
    ((metrics_record_request m latency_ms bytes status).errors_total
        ≠ m.errors_total ↔ (status < 200 ∨ 400 ≤ status)) := by
  refine ⟨rfl, rfl, rfl, ?_, ?_, ?_⟩
  · intro h
    simp [metrics_record_request, if_pos h]
  · intro h
    simp [metrics_record_request, if_neg h]
  · by_cases h : status < 200 ∨ 400 ≤ status
    · simp only [metrics_record_request, if_pos h]
      constructor
      · intro _; exact h
      · intro _
        omega
    · simp [metrics_record_request, if_neg h, h]

/-- Witness for C8: the update applied to the zero counter bank with an
error status. -/
theorem metrics_record_request_spec_witness :
    (metrics_record_request ⟨3, 4, 5, 6⟩ 10 20 404).requests_total
      = (3 + 1) % 2 ^ 64 ∧
    (metrics_record_request ⟨3, 4, 5, 6⟩ 10 20 404).bytes_total
      = (4 + 20) % 2 ^ 64 ∧
    (metrics_record_request ⟨3, 4, 5, 6⟩ 10 20 404).sum_latency_ms
      = (6 + 10) % 2 ^ 64 ∧
    (((404 : Int) < 200 ∨ (400 : Int) ≤ 404) →
      (metrics_record_request ⟨3, 4, 5, 6⟩ 10 20 404).errors_total
        = (5 + 1) % 2 ^ 64) ∧
    (¬ ((404 : Int) < 200 ∨ (400 : Int) ≤ 404) →
      (metrics_record_request ⟨3, 4, 5, 6⟩ 10 20 404).errors_total = 5) ∧
    ((metrics_record_request ⟨3, 4, 5, 6⟩ 10 20 404).errors_total ≠ 5 ↔
      ((404 : Int) < 200 ∨ (400 : Int) ≤ 404)) :=
  metrics_record_request_spec ⟨3, 4, 5, 6⟩ 10 20 404 (by norm_num)

/-! Scheduler dispatch and policy hot-swap. scheduler_t dispatches push
and pop through function pointers to one of the two policies. The
threadpool translation unit that implements threadpool_set_scheduler is
not part of the provided sources (only its header declaration and its
callers are), so the swap and its drain step are modelled from the
specification below. -/

/-- A scheduler instance: one of the two concrete policies together
with its state (the function-pointer dispatch of scheduler_t). -/
inductive Sched where
  | fifo (st : FifoState)
  | sjf (st : SjfState)
deriving Repr, DecidableEq

/-- Dispatch push to the policy implementation. -/
def schedPush (s : Sched) (j : Job) : Int × Sched :=
  match s with
  | .fifo st => ((fifo_push st j).1, .fifo (fifo_push st j).2)
  | .sjf st => ((sjf_push st j).1, .sjf (sjf_push st j).2)

/-- Dispatch pop to the policy implementation. -/
def schedPop (s : Sched) : Int × Option Job × Sched :=
  match s with
  | .fifo st => ((fifo_pop st).1, (fifo_pop st).2.1, .fifo (fifo_pop st).2.2)
  | .sjf st => ((sjf_pop st).1, (sjf_pop st).2.1, .sjf (sjf_pop st).2.2)

/-- The count of queued jobs of a scheduler instance. -/
def schedCount : Sched → Nat
  | .fifo st => st.count
  | .sjf st => st.jobs.length

/-- The fixed capacity of a scheduler instance. -/
def schedCapacity : Sched → Nat
  | .fifo st => st.capacity
  | .sjf st => st.capacity

/-- The multiset of queued jobs: the ring slots between head and tail
for FIFO, the active heap slots for SJF. -/
def schedJobs : Sched → Multiset Job
  | .fifo st => (absQ st : Multiset Job)
  | .sjf st => (st.jobs : Multiset Job)

/-- Structural well-formedness: the FIFO ring invariant (the SJF model
needs none). -/
def SchedWF : Sched → Prop
  | .fifo st => FifoInv st
  | .sjf _ => True

theorem schedPop_some_count {s : Sched} {rc : Int} {j : Job} {s2 : Sched}
    (h : schedPop s = (rc, some j, s2)) : schedCount s2 < schedCount s := by
  match s with
  | .fifo st =>
    by_cases hc : st.count = 0
    · simp [schedPop, fifo_pop, hc] at h
    · simp only [schedPop, fifo_pop, if_neg hc, Prod.mk.injEq] at h
      obtain ⟨-, -, h3⟩ := h
      rw [← h3]
      simp [schedCount]
      omega
  | .sjf st =>
    by_cases hc : st.jobs = []
    · simp [schedPop, sjf_pop, hc] at h
    · obtain ⟨x, rest, hxr⟩ := List.exists_cons_of_ne_nil hc
      by_cases hr : st.jobs.tail = []
      · simp only [schedPop, sjf_pop, if_neg hc, if_pos hr, Prod.mk.injEq] at h
        obtain ⟨-, -, h3⟩ := h
        rw [← h3]
        simp [schedCount, hxr]
      · simp only [schedPop, sjf_pop, if_neg hc, if_neg hr, Prod.mk.injEq] at h
        obtain ⟨-, -, h3⟩ := h
        rw [← h3]
        have hrne : rest ≠ [] := by
          intro hre
          apply hr
          rw [hxr, hre]
          rfl
        have hlp : 0 < rest.length := List.length_pos.mpr hrne
        simp only [schedCount, length_sift_down, List.length_cons, hxr,
          List.tail_cons, List.length_dropLast]
        omega

/-- Modelled from the spec: the drain loop inside
threadpool_set_scheduler (the implementing translation unit is missing
from the provided sources): pop the current scheduler until EMPTY,
pushing each job into the new scheduler. -/
def drainInto (src dst : Sched) : Sched :=
  match h : schedPop src with
  | (_, some j, src2) => drainInto src2 (schedPush dst j).2
  | (_, none, _) => dst
termination_by schedCount src
decreasing_by
  exact schedPop_some_count h

/-- Modelled from the spec: threadpool_set_scheduler(pool, sched) under
the pool lock drains the current scheduler into the new one, swaps the
pool's scheduler pointer, and destroys the old scheduler; the pool is
left with the drained new scheduler. -/
def threadpool_set_scheduler (cur new : Sched) : Sched :=
  drainInto cur new

theorem getLastD_cons_perm : ∀ (rest : List Job) (x : Job), rest ≠ [] →
    (rest.getLastD x :: rest.dropLast).Perm rest
  | [], x, h => absurd rfl h
  | [a], x, _ => by simp
  | a :: b :: t, x, _ => by
    have ih := getLastD_cons_perm (b :: t) a (by simp)
    have e : ((a :: b :: t).getLastD x :: (a :: b :: t).dropLast)
        = (b :: t).getLastD a :: a :: (b :: t).dropLast := by
      simp [List.getLastD]
    rw [e]
    exact (List.Perm.swap a ((b :: t).getLastD a) ((b :: t).dropLast)).trans
      (ih.cons a)

theorem schedPush_ok {s : Sched} {j : Job} (hwf : SchedWF s)
    (hroom : schedCount s < schedCapacity s) :
    (schedPush s j).1 = 0 ∧ SchedWF (schedPush s j).2 ∧
    schedJobs (schedPush s j).2 = j ::ₘ schedJobs s ∧
    schedCount (schedPush s j).2 = schedCount s + 1 ∧
    schedCapacity (schedPush s j).2 = schedCapacity s := by
  match s with
  | .fifo st =>
    obtain ⟨hrc, hinv, habs, hcnt, hcap⟩ :=
      fifo_push_ok (j := j) hwf (by simpa [schedCount, schedCapacity] using hroom)
    refine ⟨hrc, hinv, ?_, ?_, ?_⟩
    · show ((absQ (fifo_push st j).2 : Multiset Job)) = j ::ₘ (absQ st : Multiset Job)
      rw [habs, Multiset.cons_coe, Multiset.coe_eq_coe]
      exact List.perm_append_singleton j (absQ st)
    · show (fifo_push st j).2.count = st.count + 1
      exact hcnt
    · show (fifo_push st j).2.capacity = st.capacity
      exact hcap
  | .sjf st =>
    have hne : st.jobs.length ≠ st.capacity := by
      simp [schedCount, schedCapacity] at hroom
      omega
    have hstep : sjf_push st j
        = (0, { st with jobs := sift_up (st.jobs ++ [j]) st.jobs.length }) := by
      rw [sjf_push, if_neg hne]
    refine ⟨by simp [schedPush, hstep], trivial, ?_, ?_, ?_⟩
    · show ((sjf_push st j).2.jobs : Multiset Job) = j ::ₘ (st.jobs : Multiset Job)
      rw [hstep, Multiset.cons_coe, Multiset.coe_eq_coe]
      exact (sift_up_perm _ _ (by simp)).trans
        (List.perm_append_singleton j st.jobs)
    · show (sjf_push st j).2.jobs.length = st.jobs.length + 1
      rw [hstep]
      simp [length_sift_up]
    · show (sjf_push st j).2.capacity = st.capacity
      rw [hstep]

theorem schedPop_none {s : Sched} {rc : Int} {s2 : Sched} (hwf : SchedWF s)
    (h : schedPop s = (rc, none, s2)) : schedJobs s = 0 := by
  match s with
  | .fifo st =>
    by_cases hc : st.count = 0
    · show ((absQ st : Multiset Job)) = 0
      simp [absQ, hc]
    · simp only [schedPop, fifo_pop, if_neg hc, Prod.mk.injEq] at h
      exact absurd h.2.1 (by simp)
  | .sjf st =>
    by_cases hc : st.jobs = []
    · show ((st.jobs : Multiset Job)) = 0
      simp [hc]
    · by_cases hr : st.jobs.tail = []
      · simp only [schedPop, sjf_pop, if_neg hc, if_pos hr, Prod.mk.injEq] at h
        exact absurd h.2.1 (by simp)
      · simp only [schedPop, sjf_pop, if_neg hc, if_neg hr, Prod.mk.injEq] at h
        exact absurd h.2.1 (by simp)

theorem schedPop_some {s : Sched} {rc : Int} {j : Job} {s2 : Sched}
    (hwf : SchedWF s) (h : schedPop s = (rc, some j, s2)) :
    schedJobs s = j ::ₘ schedJobs s2 ∧ SchedWF s2 ∧
    schedCount s2 + 1 = schedCount s ∧ schedCapacity s2 = schedCapacity s := by
  match s with
  | .fifo st =>
    by_cases hc : st.count = 0
    · simp [schedPop, fifo_pop, hc] at h
    · obtain ⟨hrc, hout, hinv, habs, hcnt⟩ := fifo_pop_ok hwf (by omega)
      simp only [schedPop, Prod.mk.injEq] at h
      obtain ⟨-, hj, hs2⟩ := h
      rw [hout] at hj
      rw [Option.some_inj] at hj
      refine ⟨?_, ?_, ?_, ?_⟩
      · show ((absQ st : Multiset Job)) = j ::ₘ schedJobs s2
        rw [← hs2, ← hj]
        show ((absQ st : Multiset Job))
          = get1 st.arr st.head ::ₘ ((absQ (fifo_pop st).2.2 : Multiset Job))
        rw [habs, Multiset.cons_coe]
      · rw [← hs2]; exact hinv
      · rw [← hs2]
        show (fifo_pop st).2.2.count + 1 = st.count
        rw [hcnt]; omega
      · rw [← hs2]
        show (fifo_pop st).2.2.capacity = st.capacity
        by_cases hc2 : st.count = 0
        · omega
        · simp [fifo_pop, hc2]
  | .sjf st =>
    by_cases hc : st.jobs = []
    · simp [schedPop, sjf_pop, hc] at h
    · obtain ⟨x, rest, hxr⟩ := List.exists_cons_of_ne_nil hc
      have hout : get1 st.jobs 0 = x := by rw [hxr]; rfl
      by_cases hr : st.jobs.tail = []
      · have hrest : rest = [] := by
          have := hr; rw [hxr] at this; simpa using this
        simp only [schedPop, sjf_pop, if_neg hc, if_pos hr, Prod.mk.injEq] at h
        obtain ⟨-, hj, hs2⟩ := h
        rw [hout, Option.some_inj] at hj
        refine ⟨?_, by rw [← hs2]; trivial, ?_, ?_⟩
        · rw [← hs2, ← hj]
          show ((st.jobs : Multiset Job)) = x ::ₘ (([] : List Job) : Multiset Job)
          rw [hxr, hrest]
          simp
        · rw [← hs2]
          show ([] : List Job).length + 1 = st.jobs.length
          rw [hxr, hrest]
          rfl
        · rw [← hs2]; rfl
      · have hrest : rest ≠ [] := by
          intro hre; apply hr; rw [hxr, hre]; rfl
        have htl : st.jobs.tail = rest := by rw [hxr]; rfl
        simp only [schedPop, sjf_pop, if_neg hc, if_neg hr, Prod.mk.injEq] at h
        obtain ⟨-, hj, hs2⟩ := h
        rw [hout, Option.some_inj] at hj
        refine ⟨?_, by rw [← hs2]; trivial, ?_, ?_⟩
        · rw [← hs2, ← hj]
          show ((st.jobs : Multiset Job)) = x ::ₘ
            ((sift_down (st.jobs.tail.getLastD (get1 st.jobs 0)
              :: st.jobs.tail.dropLast) 0 : List Job) : Multiset Job)
          rw [Multiset.cons_coe, Multiset.coe_eq_coe, htl, hout, hxr]
          exact (((sift_down_perm _ 0).trans
            (getLastD_cons_perm rest x hrest)).cons x).symm
        · rw [← hs2]
          show (sift_down (st.jobs.tail.getLastD (get1 st.jobs 0)
              :: st.jobs.tail.dropLast) 0).length + 1 = st.jobs.length
          rw [length_sift_down, htl, hxr]
          simp [List.length_dropLast]
          have : 0 < rest.length := List.length_pos.mpr hrest
          omega
        · rw [← hs2]; rfl

theorem drainInto_jobs : ∀ (src dst : Sched), SchedWF src → SchedWF dst →
    schedCount src + schedCount dst ≤ schedCapacity dst →
    schedJobs (drainInto src dst) = schedJobs src + schedJobs dst := by
  intro src dst
  induction src, dst using drainInto.induct with
  | case1 src dst rc j src2 hpop ih =>
    intro hwfs hwfd hcap
    obtain ⟨hjobs, hwf2, hcnt, hcap2⟩ := schedPop_some hwfs hpop
    obtain ⟨-, hwfp, hpjobs, hpcnt, hpcap⟩ :=
      schedPush_ok (j := j) hwfd (by omega)
    rw [drainInto, hpop]
    rw [ih hwf2 hwfp (by rw [hpcnt, hpcap]; omega)]
    rw [hjobs, hpjobs]
    rw [Multiset.add_cons, Multiset.cons_add]
  | case2 src dst rc s2 hpop =>
    intro hwfs hwfd hcap
    rw [drainInto, hpop]
    rw [schedPop_none hwfs hpop]
    simp

/-- Claim C6: threadpool_set_scheduler transfers (drains) every queued
job of the current scheduler into the new scheduler before swapping, so
no queued job is lost by a policy hot-swap: the multiset of jobs in the
resulting scheduler is the union of the jobs queued in the old and new
schedulers (provided the new scheduler has room for all of them; the
drain is modelled from the spec, its translation unit being absent from
the sources). -/
theorem set_scheduler_drains (cur new : Sched) (hwfc : SchedWF cur)
    (hwfn : SchedWF new)
    (hcap : schedCount cur + schedCount new ≤ schedCapacity new) :
    schedJobs (threadpool_set_scheduler cur new)
      = schedJobs cur + schedJobs new := by
  unfold threadpool_set_scheduler
  exact drainInto_jobs cur new hwfc hwfn hcap

/-- Witness for C6: hot-swapping a FIFO scheduler holding one queued job
for a fresh SJF scheduler preserves the queued job. -/
theorem set_scheduler_drains_witness :
    schedJobs (threadpool_set_scheduler
        (Sched.fifo (fifo_push (scheduler_fifo_create 4) jobA).2)
        (Sched.sjf (scheduler_sjf_create 4)))
      = schedJobs (Sched.fifo (fifo_push (scheduler_fifo_create 4) jobA).2)
        + schedJobs (Sched.sjf (scheduler_sjf_create 4)) :=
  set_scheduler_drains _ _
    ((fifo_push_ok (fifo_create_inv 4) (by decide)).2.1)
    trivial (by decide)

end Webserver
